import Mathlib

set_option linter.unusedSectionVars false

/-!
Verification of the Requirements relation store (requirements.hpp).

The store keeps directed pairs (dependent, requirement) in a multimap,
modelled here as a list kept in iteration order (new pairs are inserted at
the head).  The recursive transitive query `_requires` and the recursive
chain enumerations can fail to terminate on cyclic reflexive stores, so
they are embedded with an explicit fuel parameter: a `none` result means
the C++ recursion would still be running after `fuel` nested calls, and a
`some` result is the value the C++ code returns (it is then the same for
every larger fuel).  Assertions of the C++ code are modelled as error
results carrying the store state observable at the assertion point.
-/

namespace Requirements

/-- Model of the class Requirements&lt;T&gt;: the immutable m_reflexive flag and
the multimap m_requirements of (dependent, requirement) pairs, as a list in
iteration order. -/
structure Store (α : Type) where
  reflexive : Bool
  pairs : List (α × α)
deriving DecidableEq

/-- Error kinds for the assertions of the C++ code (section 7 of the spec). -/
inductive ReqError
  | selfRelation
  | duplicateRelation
  | reflexivityViolation
  | notFound
deriving DecidableEq

variable {α : Type} [DecidableEq α]

/-- Model of Requirements&lt;T&gt;::exists(dependent, requirement) without
recursion: scans the entries with key dependent for value requirement,
i.e. tests direct membership of the pair.  (Named exists_rel because
exists is reserved in Lean.) -/
def exists_rel (pairs : List (α × α)) (dependent requirement : α) : Bool :=
  pairs.any (fun p => decide (p = (dependent, requirement)))

/-- Model of Requirements&lt;T&gt;::requirements(dependent): the direct
requirements of dependent, in iteration order. -/
def requirements (pairs : List (α × α)) (dependent : α) : List α :=
  (pairs.filter (fun p => decide (p.1 = dependent))).map (fun p => p.2)

/-- Model of Requirements&lt;T&gt;::dependents(requirement): the direct
dependents of requirement, in iteration order. -/
def dependents (pairs : List (α × α)) (requirement : α) : List α :=
  (pairs.filter (fun p => decide (p.2 = requirement))).map (fun p => p.1)

/-- Model of Requirements&lt;T&gt;::has_requirements(dependent). -/
def has_requirements (pairs : List (α × α)) (dependent : α) : Bool :=
  pairs.any (fun p => decide (p.1 = dependent))

/-- Model of Requirements&lt;T&gt;::has_dependents(requirement). -/
def has_dependents (pairs : List (α × α)) (requirement : α) : Bool :=
  pairs.any (fun p => decide (p.2 = requirement))

/-- The while loop of Requirements&lt;T&gt;::_requires over the direct
requirements of the current node: each requirement q is skipped when it
equals the previous node on the path, otherwise the recursive call step q
runs; a true result stops the loop.  A none from step models a recursive
call that does not terminate. -/
def reqLoop (step : α → Option Bool) (prev : Option α) : List α → Option Bool
  | [] => some false
  | q :: qs =>
    if prev = some q then reqLoop step prev qs
    else
      match step q with
      | some true => some true
      | some false => reqLoop step prev qs
      | none => none

/-- Model of Requirements&lt;T&gt;::_requires(dependent, requirement, prev) with
fuel bounding the recursion depth: first the direct check exists(dependent,
requirement), then the loop over requirements(dependent) recursing with
prev := dependent.  Requirements&lt;T&gt;::requires(d, r) is
requires_fuel pairs fuel d r none in the limit of large fuel. -/
def requires_fuel (pairs : List (α × α)) : Nat → α → α → Option α → Option Bool
  | 0, _, _, _ => none
  | fuel+1, dependent, requirement, prev =>
    if exists_rel pairs dependent requirement then some true
    else
      reqLoop (fun q => requires_fuel pairs fuel q requirement (some dependent))
        prev (requirements pairs dependent)

/-- Termination of Requirements&lt;T&gt;::requires(dependent, requirement): some
recursion depth suffices for the C++ call to return. -/
def requires_terminates (pairs : List (α × α)) (d r : α) : Prop :=
  ∃ fuel, (requires_fuel pairs fuel d r none).isSome

/-- Model of Requirements&lt;T&gt;::add: the three assertions in source order
(self relation, implicit requirement via requires, opposite requirement via
requires when not reflexive), then insertion of the pair.  A none result
means one of the embedded requires calls did not terminate within fuel. -/
def add (fuel : Nat) (s : Store α) (dependent requirement : α) :
    Option (Store α × Option ReqError) :=

  if dependent = requirement then some (s, some ReqError.selfRelation)
  else
    match requires_fuel s.pairs fuel dependent requirement none with
    | none => none
    | some true => some (s, some ReqError.duplicateRelation)
    | some false =>
      if s.reflexive then
        some ({ s with pairs := (dependent, requirement) :: s.pairs }, none)
      else
        match requires_fuel s.pairs fuel requirement dependent none with
        | none => none
        | some true => some (s, some ReqError.reflexivityViolation)
        | some false =>
          some ({ s with pairs := (dependent, requirement) :: s.pairs }, none)

/-- Termination of Requirements&lt;T&gt;::add(dependent, requirement): some
recursion depth suffices for the call (and the requires searches it embeds)
to return, with or without an error. -/
def add_terminates (s : Store α) (dependent requirement : α) : Prop :=
  ∃ fuel, (add fuel s dependent requirement).isSome

/-- Model of Requirements&lt;T&gt;::remove: erases every stored copy of the
exact pair, and reports an error when none was found (in which case
nothing was erased). -/
def remove (s : Store α) (dependent requirement : α) :
    Store α × Option ReqError :=
  ({ s with pairs := s.pairs.filter (fun p => !decide (p = (dependent, requirement))) },
   if s.pairs.any (fun p => decide (p = (dependent, requirement))) then none
   else some ReqError.notFound)

/-- Model of Requirements&lt;T&gt;::remove_dependent: asserts first that the
object has requirements, then erases the whole key range. -/
def remove_dependent (s : Store α) (dependent : α) : Store α × Option ReqError :=
  if has_requirements s.pairs dependent then
    ({ s with pairs := s.pairs.filter (fun p => !decide (p.1 = dependent)) }, none)
  else (s, some ReqError.notFound)

/-- Model of Requirements&lt;T&gt;::remove_requirement: erases every pair whose
value is the object, and reports an error when none was found. -/
def remove_requirement (s : Store α) (requirement : α) : Store α × Option ReqError :=
  ({ s with pairs := s.pairs.filter (fun p => !decide (p.2 = requirement)) },
   if s.pairs.any (fun p => decide (p.2 = requirement)) then none
   else some ReqError.notFound)

/-- Model of Requirements&lt;T&gt;::remove_all: remove_dependent when the object
has requirements, then remove_requirement when it has dependents. -/
def remove_all (s : Store α) (object : α) : Store α :=
  let s1 := if has_requirements s.pairs object then (remove_dependent s object).1 else s
  if has_dependents s1.pairs object then (remove_requirement s1 object).1 else s1

/-- Model of Requirements&lt;T&gt;::clear. -/
def clear (s : Store α) : Store α :=
  { s with pairs := [] }

/-- Model of Requirements&lt;T&gt;::merge: calls add for each input pair in
iteration order and stops at the first failure, keeping the pairs already
inserted. -/
def merge (fuel : Nat) : Store α → List (α × α) → Option (Store α × Option ReqError)
  | s, [] => some (s, none)
  | s, p :: rest =>
    match add fuel s p.1 p.2 with
    | none => none
    | some (s', some e) => some (s', some e)
    | some (s', none) => merge fuel s' rest

/-- Model of Requirements&lt;T&gt;::set: clear then merge. -/
def set (fuel : Nat) (s : Store α) (l : List (α × α)) :
    Option (Store α × Option ReqError) :=
  merge fuel (clear s) l

/-- Concatenation of two optional row lists; none (a diverging recursive
enumeration) is absorbing. -/
def optConcat (a b : Option (List (List α))) : Option (List (List α)) :=
  match a, b with
  | some x, some y => some (x ++ y)
  | _, _ => none

/-- The body of the per-requirement iteration of
Requirements&lt;T&gt;::all_requirements(dependent): when req has further
requirements, each recursive chain whose second element is not dependent is
prepended with dependent; if none survives (or req has no requirements) the
two-element row [dependent, req] is produced. -/
def chainRows (dependent req : α) (hasSub : Bool) (sub : Option (List (List α))) :
    Option (List (List α)) :=
  if hasSub then
    match sub with
    | none => none
    | some subs =>
      let kept := subs.filter (fun c => !decide (c.get? 1 = some dependent))
      some (if kept.isEmpty then [[dependent, req]] else kept.map (fun c => dependent :: c))
  else some [[dependent, req]]

/-- Model of Requirements&lt;T&gt;::all_requirements(dependent) with fuel
bounding the recursion depth (the has_requirements precondition assert is
not part of this function; rows are produced only from direct
requirements). -/
def all_requirements (pairs : List (α × α)) : Nat → α → Option (List (List α))
  | 0, _ => none
  | fuel+1, dependent =>
    (requirements pairs dependent).foldr
      (fun req acc =>
        optConcat
          (chainRows dependent req (has_requirements pairs req)
            (all_requirements pairs fuel req)) acc)
      (some [])

/-- Model of Requirements&lt;T&gt;::all_dependencies(requirement), the mirror of
all_requirements over incoming edges. -/
def all_dependencies (pairs : List (α × α)) : Nat → α → Option (List (List α))
  | 0, _ => none
  | fuel+1, requirement =>
    (dependents pairs requirement).foldr
      (fun dep acc =>
        optConcat
          (chainRows requirement dep (has_dependents pairs dep)
            (all_dependencies pairs fuel dep)) acc)
      (some [])

/-- Model of Requirements&lt;T&gt;::all_requirements(without_duplicates): iterate
the stored pairs; a key is used as a chain start when without_duplicates is
false or the key has no dependents, and only when no already-produced row
starts with it. -/
def all_requirements_all (fuel : Nat) (pairs : List (α × α)) (without_duplicates : Bool) :
    Option (List (List α)) :=
  pairs.foldl
    (fun acc p =>
      match acc with
      | none => none
      | some result =>
        if !without_duplicates || !has_dependents pairs p.1 then
          if result.any (fun row => decide (row.get? 0 = some p.1)) then some result
          else
            match all_requirements pairs fuel p.1 with
            | none => none
            | some rows => some (result ++ rows)
        else some result)
    (some [])

/-- Model of Requirements&lt;T&gt;::all_dependencies(without_duplicates), the
mirror of all_requirements_all over values of the stored pairs. -/
def all_dependencies_all (fuel : Nat) (pairs : List (α × α)) (without_duplicates : Bool) :
    Option (List (List α)) :=
  pairs.foldl
    (fun acc p =>
      match acc with
      | none => none
      | some result =>
        if !without_duplicates || !has_requirements pairs p.2 then
          if result.any (fun row => decide (row.get? 0 = some p.2)) then some result
          else
            match all_dependencies pairs fuel p.2 with
            | none => none
            | some rows => some (result ++ rows)
        else some result)
    (some [])

/-- Specification-level path: PathTo pairs d l r holds when l is the list
of successive nodes of a walk along stored pairs from d ending at r. -/
inductive PathTo (pairs : List (α × α)) : α → List α → α → Prop
  | nil (d : α) : PathTo pairs d [] d
  | cons {d x r : α} {l : List α} :
      (d, x) ∈ pairs → PathTo pairs x l r → PathTo pairs d (x :: l) r

/-- Reachability in zero or more steps along stored pairs. -/
def reachS (pairs : List (α × α)) (d r : α) : Prop :=
  ∃ l, PathTo pairs d l r

/-- Derivability of the pair (d, r): r is reachable from d in one or more
steps along stored pairs (directly or transitively). -/
def reachT (pairs : List (α × α)) (d r : α) : Prop :=
  ∃ l, l ≠ [] ∧ PathTo pairs d l r

/-- The graph of stored pairs has no directed cycle. -/
def Acyclic (pairs : List (α × α)) : Prop :=
  ∀ x, ¬ reachT pairs x x

/-- Stores reachable from an empty store by successful operations. -/
inductive Reachable : Store α → Prop
  | ofEmpty (b : Bool) : Reachable ⟨b, []⟩
  | ofAdd {s s' : Store α} (fuel : Nat) (d r : α) :
      Reachable s → add fuel s d r = some (s', none) → Reachable s'
  | ofRemove {s s' : Store α} (d r : α) :
      Reachable s → remove s d r = (s', none) → Reachable s'
  | ofRemoveDependent {s s' : Store α} (d : α) :
      Reachable s → remove_dependent s d = (s', none) → Reachable s'
  | ofRemoveRequirement {s s' : Store α} (r : α) :
      Reachable s → remove_requirement s r = (s', none) → Reachable s'
  | ofRemoveAll {s : Store α} (x : α) :
      Reachable s → Reachable (remove_all s x)
  | ofClear {s : Store α} :
      Reachable s → Reachable (clear s)
  | ofSet {s s' : Store α} (fuel : Nat) (l : List (α × α)) :
      Reachable s → set fuel s l = some (s', none) → Reachable s'
  | ofMerge {s s' : Store α} (fuel : Nat) (l : List (α × α)) :
      Reachable s → merge fuel s l = some (s', none) → Reachable s'

/-- Membership in the direct-requirements list is membership of the pair. -/
theorem mem_requirements {pairs : List (α × α)} {d q : α} :
    q ∈ requirements pairs d ↔ (d, q) ∈ pairs := by
  simp only [requirements, List.mem_map, List.mem_filter, decide_eq_true_eq]
  constructor
  · rintro ⟨⟨a, b⟩, ⟨hm, h1⟩, h2⟩
    simp only at h1 h2
    subst h1; subst h2; exact hm
  · intro h
    exact ⟨(d, q), ⟨h, rfl⟩, rfl⟩

/-- Membership in the direct-dependents list is membership of the pair. -/
theorem mem_dependents {pairs : List (α × α)} {r q : α} :
    q ∈ dependents pairs r ↔ (q, r) ∈ pairs := by
  simp only [dependents, List.mem_map, List.mem_filter, decide_eq_true_eq]
  constructor
  · rintro ⟨⟨a, b⟩, ⟨hm, h1⟩, h2⟩
    simp only at h1 h2
    subst h1; subst h2; exact hm
  · intro h
    exact ⟨(q, r), ⟨h, rfl⟩, rfl⟩

/-- The direct check exists_rel is membership of the pair. -/
theorem exists_rel_iff {pairs : List (α × α)} {d r : α} :
    exists_rel pairs d r = true ↔ (d, r) ∈ pairs := by
  simp [exists_rel, List.any_eq_true]

/-- has_requirements holds exactly when the object has a direct requirement. -/
theorem has_requirements_iff {pairs : List (α × α)} {d : α} :
    has_requirements pairs d = true ↔ ∃ r, (d, r) ∈ pairs := by
  simp only [has_requirements, List.any_eq_true, decide_eq_true_eq]
  constructor
  · rintro ⟨⟨a, b⟩, hm, h1⟩
    simp only at h1
    subst h1; exact ⟨b, hm⟩
  · rintro ⟨r, hm⟩
    exact ⟨(d, r), hm, rfl⟩

/-- has_dependents holds exactly when the object has a direct dependent. -/
theorem has_dependents_iff {pairs : List (α × α)} {r : α} :
    has_dependents pairs r = true ↔ ∃ d, (d, r) ∈ pairs := by
  simp only [has_dependents, List.any_eq_true, decide_eq_true_eq]
  constructor
  · rintro ⟨⟨a, b⟩, hm, h1⟩
    simp only at h1
    subst h1; exact ⟨a, hm⟩
  · rintro ⟨d, hm⟩
    exact ⟨(d, r), hm, rfl⟩

/-- The requirement loop converges when every recursive call it actually
performs converges. -/
theorem reqLoop_isSome {step : α → Option Bool} {prev : Option α} {l : List α}
    (h : ∀ q ∈ l, ¬ prev = some q → (step q).isSome) :
    (reqLoop step prev l).isSome := by
  induction l with
  | nil => simp [reqLoop]
  | cons q qs ih =>
    simp only [reqLoop]
    by_cases hp : prev = some q
    · rw [if_pos hp]
      exact ih (fun q' hq' hp' => h q' (List.mem_cons_of_mem _ hq') hp')
    · rw [if_neg hp]
      have hs := h q (List.mem_cons_self _ _) hp
      cases hstep : step q with
      | none => rw [hstep] at hs; simp at hs
      | some b =>
        cases b
        · exact ih (fun q' hq' hp' => h q' (List.mem_cons_of_mem _ hq') hp')
        · simp

/-- When the requirement loop returns false, every recursive call it did not
skip returned false. -/
theorem reqLoop_false_of_mem {step : α → Option Bool} {prev : Option α}
    {l : List α} {q : α} (h : reqLoop step prev l = some false)
    (hq : q ∈ l) (hp : ¬ prev = some q) : step q = some false := by
  induction l with
  | nil => cases hq
  | cons a as ih =>
    simp only [reqLoop] at h
    by_cases hpa : prev = some a
    · rw [if_pos hpa] at h
      rcases List.mem_cons.mp hq with rfl | hq'
      · exact absurd hpa hp
      · exact ih h hq'
    · rw [if_neg hpa] at h
      cases hstep : step a with
      | none => rw [hstep] at h; cases h
      | some b =>
        cases b
        · rw [hstep] at h
          rcases List.mem_cons.mp hq with rfl | hq'
          · exact hstep
          · exact ih h hq'
        · rw [hstep] at h; cases h

/-- When the requirement loop returns true, some unskipped recursive call
returned true. -/
theorem reqLoop_true_exists {step : α → Option Bool} {prev : Option α}
    {l : List α} (h : reqLoop step prev l = some true) :
    ∃ q ∈ l, ¬ prev = some q ∧ step q = some true := by
  induction l with
  | nil => cases h
  | cons a as ih =>
    simp only [reqLoop] at h
    by_cases hpa : prev = some a
    · rw [if_pos hpa] at h
      obtain ⟨q, hq, hp, hs⟩ := ih h
      exact ⟨q, List.mem_cons_of_mem _ hq, hp, hs⟩
    · rw [if_neg hpa] at h
      cases hstep : step a with
      | none => rw [hstep] at h; cases h
      | some b =>
        cases b
        · rw [hstep] at h
          obtain ⟨q, hq, hp, hs⟩ := ih h
          exact ⟨q, List.mem_cons_of_mem _ hq, hp, hs⟩
        · exact ⟨a, List.mem_cons_self _ _, hpa, hstep⟩

/-- Paths compose. -/
theorem PathTo.append {pairs : List (α × α)} {d m r : α} {l₁ l₂ : List α}
    (h₁ : PathTo pairs d l₁ m) (h₂ : PathTo pairs m l₂ r) :
    PathTo pairs d (l₁ ++ l₂) r := by
  induction h₁ with
  | nil => exact h₂
  | cons he _ ih => exact PathTo.cons he (ih h₂)

/-- A path with an empty node list relates a node to itself. -/
theorem PathTo.eq_of_nil {pairs : List (α × α)} {d r : α}
    (h : PathTo pairs d [] r) : d = r := by
  cases h; rfl

/-- Every node on a path is reachable from the path's start. -/
theorem reachS_of_mem_path {pairs : List (α × α)} {x r y : α} {l : List α}
    (h : PathTo pairs x l r) (hy : y ∈ x :: l) : reachS pairs x y := by
  induction h with
  | nil d =>
    rcases List.mem_cons.mp hy with rfl | hy'
    · exact ⟨[], PathTo.nil y⟩
    · cases hy'
  | cons he hp ih =>
    rcases List.mem_cons.mp hy with rfl | hy'
    · exact ⟨[], PathTo.nil y⟩
    · obtain ⟨l', hl'⟩ := ih hy'
      exact ⟨_ :: l', PathTo.cons he hl'⟩

/-- On an acyclic store every path visits pairwise distinct nodes. -/
theorem path_nodup {pairs : List (α × α)} (hA : Acyclic pairs) {d r : α}
    {l : List α} (h : PathTo pairs d l r) : (d :: l).Nodup := by
  induction h with
  | nil d => simp
  | cons he hp ih =>
    rename_i d x r l
    refine List.nodup_cons.mpr ⟨?_, ih⟩
    intro hd
    obtain ⟨l', hl'⟩ := reachS_of_mem_path hp hd
    exact hA d ⟨x :: l', List.cons_ne_nil _ _, PathTo.cons he hl'⟩

/-- Dropping the final node of a path, every node is a key of the store. -/
theorem path_dropLast_keys {pairs : List (α × α)} {d r : α} {l : List α}
    (h : PathTo pairs d l r) :
    ∀ y ∈ (d :: l).dropLast, y ∈ pairs.map (fun p => p.1) := by
  induction h with
  | nil d => intro y hy; simp at hy
  | cons he hp ih =>
    rename_i d x r l
    intro y hy
    rw [List.dropLast_cons₂] at hy
    rcases List.mem_cons.mp hy with rfl | hy'
    · exact List.mem_map.mpr ⟨(y, x), he, rfl⟩
    · exact ih y hy'

/-- On an acyclic store the number of edges of a path is bounded by the
number of stored pairs. -/
theorem path_length_le {pairs : List (α × α)} (hA : Acyclic pairs) {d r : α}
    {l : List α} (h : PathTo pairs d l r) : l.length ≤ pairs.length := by
  have hnd : (d :: l).Nodup := path_nodup hA h
  have hnd' : ((d :: l).dropLast).Nodup := hnd.sublist (List.dropLast_sublist _)
  have hsub : (d :: l).dropLast ⊆ pairs.map (fun p => p.1) :=
    fun y hy => path_dropLast_keys h y hy
  have hle := (hnd'.subperm hsub).length_le
  simpa [List.length_dropLast] using hle

/-- Soundness of the recursive search: a true answer exhibits a chain of
stored pairs from dependent to requirement. -/
theorem requires_fuel_true_reachT {pairs : List (α × α)} {r : α} :
    ∀ {fuel : Nat} {d : α} {prev : Option α},
      requires_fuel pairs fuel d r prev = some true → reachT pairs d r := by
  intro fuel
  induction fuel with
  | zero => intro d prev h; cases h
  | succ f ih =>
    intro d prev h
    simp only [requires_fuel] at h
    by_cases hex : exists_rel pairs d r = true
    · exact ⟨[r], List.cons_ne_nil _ _,
        PathTo.cons (exists_rel_iff.mp hex) (PathTo.nil r)⟩
    · rw [if_neg (by simpa using hex)] at h
      obtain ⟨q, hq, _, hstep⟩ := reqLoop_true_exists h
      obtain ⟨l, hl, hp⟩ := ih hstep
      exact ⟨q :: l, List.cons_ne_nil _ _,
        PathTo.cons (mem_requirements.mp hq) hp⟩

/-- A path factors through any later occurrence of a node on it. -/
theorem pathTo_suffix {pairs : List (α × α)} {r y : α} :
    ∀ {s t : List α} {d : α}, PathTo pairs d (s ++ y :: t) r → PathTo pairs y t r := by
  intro s
  induction s with
  | nil =>
    intro t d h
    cases h with
    | cons _ hp => exact hp
  | cons a s' ih =>
    intro t d h
    cases h with
    | cons _ hp => exact ih hp

/-- From any nonempty path between distinct nodes one extracts a nonempty
duplicate-free path between the same nodes whose nodes all lie on the
original path. -/
theorem pathTo_nodup_extract {pairs : List (α × α)} {r : α} :
    ∀ (n : Nat) {d : α} {l : List α}, l.length ≤ n → PathTo pairs d l r →
      l ≠ [] → d ≠ r →
      ∃ l', l' ≠ [] ∧ PathTo pairs d l' r ∧ (d :: l').Nodup ∧ l' ⊆ l := by
  intro n
  induction n with
  | zero =>
    intro d l hlen hp hne _
    cases l with
    | nil => exact absurd rfl hne
    | cons x l₂ => simp at hlen
  | succ n ih =>
    intro d l hlen hp hne hdr
    cases l with
    | nil => exact absurd rfl hne
    | cons x l₂ =>
      by_cases hdx : d ∈ x :: l₂
      · obtain ⟨s, t, hst⟩ := List.append_of_mem hdx
        have hpt : PathTo pairs d t r := pathTo_suffix (hst ▸ hp)
        have htne : t ≠ [] := by
          intro h0
          subst h0
          exact hdr (PathTo.eq_of_nil hpt)
        have htlen : t.length ≤ n := by
          have hcl := congrArg List.length hst
          simp only [List.length_cons, List.length_append] at hcl
          have hlen' := hlen
          simp only [List.length_cons] at hlen'
          omega
        obtain ⟨l', hne', hp', hnd', hsub'⟩ := ih htlen hpt htne hdr
        refine ⟨l', hne', hp', hnd', fun y hy => ?_⟩
        rw [hst]
        exact List.mem_append.mpr (Or.inr (List.mem_cons_of_mem _ (hsub' hy)))
      · cases hp with
        | cons he hp₂ =>
          by_cases hxr : x = r
          · subst hxr
            refine ⟨[x], List.cons_ne_nil _ _, PathTo.cons he (PathTo.nil x), ?_, ?_⟩
            · simp [hdr]
            · intro z hz
              rcases List.mem_cons.mp hz with rfl | hz'
              · exact List.mem_cons_self _ _
              · cases hz'
          · cases l₂ with
            | nil => exact absurd (PathTo.eq_of_nil hp₂) hxr
            | cons y l₃ =>
              have hlen₂ : (y :: l₃).length ≤ n := by
                simp only [List.length_cons] at hlen ⊢
                omega
              obtain ⟨l₂', hne', hp', hnd', hsub'⟩ :=
                ih hlen₂ hp₂ (List.cons_ne_nil _ _) hxr
              refine ⟨x :: l₂', List.cons_ne_nil _ _, PathTo.cons he hp', ?_, ?_⟩
              · refine List.nodup_cons.mpr ⟨?_, hnd'⟩
                intro hd
                rcases List.mem_cons.mp hd with rfl | hd'
                · exact hdx (List.mem_cons_self _ _)
                · exact hdx (List.mem_cons_of_mem _ (hsub' hd'))
              · intro z hz
                rcases List.mem_cons.mp hz with rfl | hz'
                · exact List.mem_cons_self _ _
                · exact List.mem_cons_of_mem _ (hsub' hz')

/-- Core completeness argument: a duplicate-free nonempty path from
dependent to requirement whose first step is not the guarded previous node
contradicts a false answer of the recursive search.  The guard can only
skip the immediately-preceding node, which a duplicate-free path never
revisits. -/
theorem requires_fuel_false_no_path {pairs : List (α × α)} {r : α} :
    ∀ {l : List α} {d : α} {fuel : Nat} {prev : Option α},
      requires_fuel pairs fuel d r prev = some false →
      PathTo pairs d l r → l ≠ [] → (d :: l).Nodup →
      (∀ p, prev = some p → l.head? ≠ some p) → False := by
  intro l
  induction l with
  | nil => intro d fuel prev _ _ hne _ _; exact hne rfl
  | cons x l' ih =>
    intro d fuel prev hreq hp _ hnd hprev
    cases fuel with
    | zero => cases hreq
    | succ f =>
      simp only [requires_fuel] at hreq
      cases hp with
      | cons he hp' =>
        by_cases hex : exists_rel pairs d r = true
        · rw [if_pos hex] at hreq; cases hreq
        · rw [if_neg (by simpa using hex)] at hreq
          cases hl' : l' with
          | nil =>
            subst hl'
            have hxr : x = r := PathTo.eq_of_nil hp'
            subst hxr
            exact hex (exists_rel_iff.mpr he)
          | cons y l'' =>
            subst hl'
            have hxmem : x ∈ requirements pairs d := mem_requirements.mpr he
            have hpx : ¬ prev = some x := by
              intro hpx
              exact hprev x hpx rfl
            have hstep := reqLoop_false_of_mem hreq hxmem hpx
            refine ih hstep hp' (List.cons_ne_nil _ _)
              (List.nodup_cons.mp hnd).2 ?_
            intro p hps hhead
            have hpd : p = d := by
              injection hps with hps'
              exact hps'.symm
            subst hpd
            have : p = y := by
              injection hhead with hh
              exact hh.symm
            subst this
            exact (List.nodup_cons.mp hnd).1
              (List.mem_cons_of_mem _ (List.mem_cons_self _ _))

/-- Completeness of the recursive search for distinct endpoints: a false
answer of the top-level call means the pair is not derivable, on any store
(the parent-only guard never hides a duplicate-free witness path). -/
theorem requires_fuel_false_not_reachT {pairs : List (α × α)} {d r : α}
    {fuel : Nat} (h : requires_fuel pairs fuel d r none = some false)
    (hdr : d ≠ r) : ¬ reachT pairs d r := by
  rintro ⟨l, hne, hp⟩
  obtain ⟨l', hne', hp', hnd', _⟩ :=
    pathTo_nodup_extract l.length (le_refl _) hp hne hdr
  exact requires_fuel_false_no_path h hp' hne' hnd' (by intro p hps; cases hps)

/-- A false answer of the top-level search in particular means the pair is
not stored directly. -/
theorem requires_fuel_false_not_direct {pairs : List (α × α)} {d r : α}
    {fuel : Nat} (h : requires_fuel pairs fuel d r none = some false) :
    (d, r) ∉ pairs := by
  cases fuel with
  | zero => cases h
  | succ f =>
    simp only [requires_fuel] at h
    intro hmem
    rw [if_pos (exists_rel_iff.mpr hmem)] at h
    cases h

/-- Zero-or-more-step reachability is reflexive-or-transitive reachability. -/
theorem reachS_iff {pairs : List (α × α)} {d r : α} :
    reachS pairs d r ↔ d = r ∨ reachT pairs d r := by
  constructor
  · rintro ⟨l, hp⟩
    cases l with
    | nil => exact Or.inl (PathTo.eq_of_nil hp)
    | cons x l' => exact Or.inr ⟨x :: l', List.cons_ne_nil _ _, hp⟩
  · rintro (rfl | ⟨l, _, hp⟩)
    · exact ⟨[], PathTo.nil d⟩
    · exact ⟨l, hp⟩

/-- Zero-or-more-step reachability composes. -/
theorem reachS_trans {pairs : List (α × α)} {a b c : α}
    (h₁ : reachS pairs a b) (h₂ : reachS pairs b c) : reachS pairs a c := by
  obtain ⟨l₁, hp₁⟩ := h₁
  obtain ⟨l₂, hp₂⟩ := h₂
  exact ⟨l₁ ++ l₂, hp₁.append hp₂⟩

/-- One-or-more-step reachability composes. -/
theorem reachT_trans {pairs : List (α × α)} {a b c : α}
    (h₁ : reachT pairs a b) (h₂ : reachT pairs b c) : reachT pairs a c := by
  obtain ⟨l₁, hne₁, hp₁⟩ := h₁
  obtain ⟨l₂, _, hp₂⟩ := h₂
  exact ⟨l₁ ++ l₂, by simp [hne₁], hp₁.append hp₂⟩

/-- Paths are preserved by enlarging the store. -/
theorem pathTo_mono {pairs pairs' : List (α × α)} (hsub : pairs' ⊆ pairs)
    {d r : α} {l : List α} (h : PathTo pairs' d l r) : PathTo pairs d l r := by
  induction h with
  | nil d => exact PathTo.nil d
  | cons he _ ih => exact PathTo.cons (hsub he) ih

/-- Derivability is preserved by enlarging the store. -/
theorem reachT_mono {pairs pairs' : List (α × α)} (hsub : pairs' ⊆ pairs)
    {d r : α} (h : reachT pairs' d r) : reachT pairs d r := by
  obtain ⟨l, hne, hp⟩ := h
  exact ⟨l, hne, pathTo_mono hsub hp⟩

/-- Acyclicity is inherited by any store with fewer pairs. -/
theorem acyclic_anti {pairs pairs' : List (α × α)} (hsub : pairs' ⊆ pairs)
    (hA : Acyclic pairs) : Acyclic pairs' :=
  fun x hx => hA x (reachT_mono hsub hx)

/-- The empty store is acyclic. -/
theorem acyclic_nil : Acyclic ([] : List (α × α)) := by
  rintro x ⟨l, hne, hp⟩
  cases l with
  | nil => exact hne rfl
  | cons y l' => cases hp with | cons he _ => cases he

/-- Decomposition of a path of the store extended with one new pair: either
the path avoids the new pair, or it reaches the new pair's dependent within
the old store and continues from the new pair's requirement. -/
theorem pathTo_cons_decompose {pairs : List (α × α)} {d0 r0 : α} {x r : α}
    {l : List α} (h : PathTo ((d0, r0) :: pairs) x l r) :
    PathTo pairs x l r ∨
      (reachS pairs x d0 ∧ ∃ t, PathTo ((d0, r0) :: pairs) r0 t r) := by
  induction h with
  | nil d => exact Or.inl (PathTo.nil d)
  | cons he hp ih =>
    rename_i a y r' l'
    rcases List.mem_cons.mp he with heq | hold
    · have ha : a = d0 := congrArg Prod.fst heq
      have hy : y = r0 := congrArg Prod.snd heq
      subst ha; subst hy
      exact Or.inr ⟨⟨[], PathTo.nil _⟩, ⟨l', hp⟩⟩
    · rcases ih with hl | ⟨⟨m, hm⟩, ht⟩
      · exact Or.inl (PathTo.cons hold hl)
      · exact Or.inr ⟨⟨y :: m, PathTo.cons hold hm⟩, ht⟩

/-- A path of the extended store starting at the new pair's requirement
either stays in the old store or reaches back to the new pair's dependent
in the old store. -/
theorem pathTo_from_new_requirement {pairs : List (α × α)} {d0 r0 : α} {r : α}
    {l : List α} (h : PathTo ((d0, r0) :: pairs) r0 l r) :
    reachS pairs r0 r ∨ reachS pairs r0 d0 := by
  rcases pathTo_cons_decompose h with hl | ⟨hreach, _⟩
  · exact Or.inl ⟨l, hl⟩
  · exact Or.inr hreach

/-- Inserting a pair whose reverse is not derivable (and whose endpoints
differ) into an acyclic store keeps it acyclic. -/
theorem add_pair_acyclic {pairs : List (α × α)} {d0 r0 : α}
    (hA : Acyclic pairs) (hrev : ¬ reachS pairs r0 d0) :
    Acyclic ((d0, r0) :: pairs) := by
  rintro x ⟨l, hne, hp⟩
  rcases pathTo_cons_decompose hp with hl | ⟨hxd, t, ht⟩
  · exact hA x ⟨l, hne, hl⟩
  · rcases pathTo_from_new_requirement ht with hrx | hrd
    · exact hrev (reachS_trans hrx hxd)
    · exact hrev hrd

/-- Operations never change the reflexivity flag: case of add. -/
theorem add_reflexive_eq {fuel : Nat} {s s' : Store α} {d r : α}
    {e : Option ReqError} (h : add fuel s d r = some (s', e)) :
    s'.reflexive = s.reflexive := by
  simp only [add] at h
  by_cases hd : d = r
  · rw [if_pos hd] at h
    injection h with h'
    exact (congrArg Store.reflexive (congrArg Prod.fst h')).symm
  · rw [if_neg hd] at h
    cases hf : requires_fuel s.pairs fuel d r none with
    | none => rw [hf] at h; cases h
    | some b =>
      rw [hf] at h
      cases b
      · by_cases hr : s.reflexive
        · rw [if_pos hr] at h
          injection h with h'
          exact (congrArg Store.reflexive (congrArg Prod.fst h')).symm
        · rw [if_neg hr] at h
          cases hg : requires_fuel s.pairs fuel r d none with
          | none => rw [hg] at h; cases h
          | some c =>
            rw [hg] at h
            cases c <;>
              · injection h with h'
                exact (congrArg Store.reflexive (congrArg Prod.fst h')).symm
      · injection h with h'
        exact (congrArg Store.reflexive (congrArg Prod.fst h')).symm

/-- Successful add inserts the pair at the head after a false answer of the
forward derivability check. -/
theorem add_success_pairs {fuel : Nat} {s s' : Store α} {d r : α}
    (h : add fuel s d r = some (s', none)) :
    d ≠ r ∧ requires_fuel s.pairs fuel d r none = some false ∧
      s' = ⟨s.reflexive, (d, r) :: s.pairs⟩ := by
  simp only [add] at h
  by_cases hd : d = r
  · rw [if_pos hd] at h
    injection h with h'
    cases congrArg Prod.snd h'
  · rw [if_neg hd] at h
    cases hf : requires_fuel s.pairs fuel d r none with
    | none => rw [hf] at h; cases h
    | some b =>
      rw [hf] at h
      cases b
      · refine ⟨hd, rfl, ?_⟩
        by_cases hr : s.reflexive
        · rw [if_pos hr] at h
          injection h with h'
          exact (congrArg Prod.fst h').symm
        · rw [if_neg hr] at h
          cases hg : requires_fuel s.pairs fuel r d none with
          | none => rw [hg] at h; cases h
          | some c =>
            rw [hg] at h
            cases c
            · injection h with h'
              exact (congrArg Prod.fst h').symm
            · injection h with h'
              cases congrArg Prod.snd h'
      · injection h with h'
        cases congrArg Prod.snd h'

/-- Successful add on a non-reflexive store moreover got a false answer for
the reverse derivability check. -/
theorem add_success_reverse {fuel : Nat} {s s' : Store α} {d r : α}
    (h : add fuel s d r = some (s', none)) (hrefl : s.reflexive = false) :
    requires_fuel s.pairs fuel r d none = some false := by
  simp only [add] at h
  by_cases hd : d = r
  · rw [if_pos hd] at h
    injection h with h'
    cases congrArg Prod.snd h'
  · rw [if_neg hd] at h
    cases hf : requires_fuel s.pairs fuel d r none with
    | none => rw [hf] at h; cases h
    | some b =>
      rw [hf] at h
      cases b
      · rw [hrefl] at h
        simp only [Bool.false_eq_true, if_false] at h
        cases hg : requires_fuel s.pairs fuel r d none with
        | none => rw [hg] at h; cases h
        | some c =>
          rw [hg] at h
          cases c
          · rfl
          · injection h with h'
            cases congrArg Prod.snd h'
      · injection h with h'
        cases congrArg Prod.snd h'

/-- Successful add preserves acyclicity of non-reflexive stores. -/
theorem add_acyclic_pres {fuel : Nat} {s s' : Store α} {d r : α}
    (h : add fuel s d r = some (s', none))
    (hinv : s.reflexive = false → Acyclic s.pairs) :
    s'.reflexive = false → Acyclic s'.pairs := by
  intro hrefl'
  have hrefl : s.reflexive = false := by
    rw [← add_reflexive_eq h]; exact hrefl'
  obtain ⟨hd, _, hs'⟩ := add_success_pairs h
  have hrev := add_success_reverse h hrefl
  have hA := hinv hrefl
  have hnrev : ¬ reachS s.pairs r d := by
    intro hS
    rcases reachS_iff.mp hS with heq | hT
    · exact hd heq.symm
    · exact requires_fuel_false_not_reachT hrev (Ne.symm hd) hT
  rw [hs']
  exact add_pair_acyclic hA hnrev

/-- Successful add preserves duplicate-freeness of the stored pair list. -/
theorem add_nodup_pres {fuel : Nat} {s s' : Store α} {d r : α}
    (h : add fuel s d r = some (s', none)) (hnd : s.pairs.Nodup) :
    s'.pairs.Nodup := by
  obtain ⟨_, hf, hs'⟩ := add_success_pairs h
  rw [hs']
  exact List.nodup_cons.mpr ⟨requires_fuel_false_not_direct hf, hnd⟩

/-- Successful merge preserves the reflexivity flag, acyclicity of
non-reflexive stores and duplicate-freeness. -/
theorem merge_invariant_pres {fuel : Nat} :
    ∀ {l : List (α × α)} {s s' : Store α},
      merge fuel s l = some (s', none) →
      s'.reflexive = s.reflexive ∧
        ((s.reflexive = false → Acyclic s.pairs) →
          s'.reflexive = false → Acyclic s'.pairs) ∧
        (s.pairs.Nodup → s'.pairs.Nodup) := by
  intro l
  induction l with
  | nil =>
    intro s s' h
    simp only [merge] at h
    injection h with h'
    injection h' with hs he
    subst hs
    exact ⟨rfl, fun hi => hi, fun hi => hi⟩
  | cons p rest ih =>
    intro s s' h
    simp only [merge] at h
    cases ha : add fuel s p.1 p.2 with
    | none => rw [ha] at h; cases h
    | some q =>
      rw [ha] at h
      obtain ⟨s₁, e₁⟩ := q
      cases e₁ with
      | some e =>
        simp only at h
        injection h with h'
        cases congrArg Prod.snd h'
      | none =>
        simp only at h
        obtain ⟨hrfl, hacy, hnd⟩ := ih h
        refine ⟨hrfl.trans (add_reflexive_eq ha), ?_, ?_⟩
        · intro hi
          exact hacy (add_acyclic_pres ha hi)
        · intro hi
          exact hnd (add_nodup_pres ha hi)

/-- The result of remove_dependent keeps a sub-list of the pairs and the
same flag. -/
theorem remove_dependent_sublist (s : Store α) (d : α) :
    (remove_dependent s d).1.pairs.Sublist s.pairs ∧
      (remove_dependent s d).1.reflexive = s.reflexive := by
  simp only [remove_dependent]
  by_cases hc : has_requirements s.pairs d
  · rw [if_pos hc]
    exact ⟨List.filter_sublist _, rfl⟩
  · rw [if_neg hc]
    exact ⟨List.Sublist.refl _, rfl⟩

/-- The result of remove_requirement keeps a sub-list of the pairs and the
same flag. -/
theorem remove_requirement_sublist (s : Store α) (r : α) :
    (remove_requirement s r).1.pairs.Sublist s.pairs ∧
      (remove_requirement s r).1.reflexive = s.reflexive :=
  ⟨List.filter_sublist _, rfl⟩

/-- The result of remove_all keeps a sub-list of the pairs and the same
flag. -/
theorem remove_all_sublist (s : Store α) (x : α) :
    (remove_all s x).pairs.Sublist s.pairs ∧
      (remove_all s x).reflexive = s.reflexive := by
  have key : ∀ s1 : Store α, s1.pairs.Sublist s.pairs → s1.reflexive = s.reflexive →
      (if has_dependents s1.pairs x then (remove_requirement s1 x).1
        else s1).pairs.Sublist s.pairs ∧
      (if has_dependents s1.pairs x then (remove_requirement s1 x).1
        else s1).reflexive = s.reflexive := by
    intro s1 hsub hrfl
    by_cases hc : has_dependents s1.pairs x
    · rw [if_pos hc]
      exact ⟨(remove_requirement_sublist s1 x).1.trans hsub,
        (remove_requirement_sublist s1 x).2.trans hrfl⟩
    · rw [if_neg hc]
      exact ⟨hsub, hrfl⟩
  simp only [remove_all]
  by_cases hc : has_requirements s.pairs x
  · rw [if_pos hc]
    exact key _ (remove_dependent_sublist s x).1 (remove_dependent_sublist s x).2
  · rw [if_neg hc]
    exact key s (List.Sublist.refl _) rfl

/-- Every reachable store has a duplicate-free pair list, and is acyclic
when its reflexivity flag is off. -/
theorem reachable_invariant {s : Store α} (h : Reachable s) :
    (s.reflexive = false → Acyclic s.pairs) ∧ s.pairs.Nodup := by
  induction h with
  | ofEmpty b => exact ⟨fun _ => acyclic_nil, List.nodup_nil⟩
  | ofAdd fuel d r _ hop ih =>
    exact ⟨add_acyclic_pres hop ih.1, add_nodup_pres hop ih.2⟩
  | ofRemove d r _ hop ih =>
    rename_i s s' _
    have hs' : s' = (remove s d r).1 := by rw [hop]
    have hp : s'.pairs = s.pairs.filter
        (fun p => !decide (p = (d, r))) := by rw [hs']; rfl
    have hr : s'.reflexive = s.reflexive := by rw [hs']; rfl
    refine ⟨fun hf => ?_, ?_⟩
    · rw [hp]
      exact acyclic_anti (fun y hy => List.mem_of_mem_filter hy)
        (ih.1 (hr.symm.trans hf))
    · rw [hp]
      exact ih.2.filter _
  | ofRemoveDependent d _ hop ih =>
    rename_i s s' _
    have hs' : s' = (remove_dependent s d).1 := by rw [hop]
    by_cases hc : has_requirements s.pairs d = true
    · have hp : s'.pairs = s.pairs.filter (fun p => !decide (p.1 = d)) := by
        rw [hs', remove_dependent, if_pos hc]
      have hr : s'.reflexive = s.reflexive := by
        rw [hs', remove_dependent, if_pos hc]
      refine ⟨fun hf => ?_, ?_⟩
      · rw [hp]
        exact acyclic_anti (fun y hy => List.mem_of_mem_filter hy)
          (ih.1 (hr.symm.trans hf))
      · rw [hp]
        exact ih.2.filter _
    · have hs : s' = s := by
        rw [hs', remove_dependent, if_neg hc]
      rw [hs]
      exact ih
  | ofRemoveRequirement r _ hop ih =>
    rename_i s s' _
    have hs' : s' = (remove_requirement s r).1 := by rw [hop]
    have hp : s'.pairs = s.pairs.filter
        (fun p => !decide (p.2 = r)) := by rw [hs']; rfl
    have hr : s'.reflexive = s.reflexive := by rw [hs']; rfl
    refine ⟨fun hf => ?_, ?_⟩
    · rw [hp]
      exact acyclic_anti (fun y hy => List.mem_of_mem_filter hy)
        (ih.1 (hr.symm.trans hf))
    · rw [hp]
      exact ih.2.filter _
  | ofRemoveAll x _ ih =>
    rename_i s _
    obtain ⟨hsub, hrfl⟩ := remove_all_sublist s x
    exact ⟨fun hf => acyclic_anti hsub.subset (ih.1 (hrfl.symm.trans hf)),
      ih.2.sublist hsub⟩
  | ofClear ih =>
    exact ⟨fun _ => acyclic_nil, List.nodup_nil⟩
  | ofSet fuel l _ hop ih =>
    rename_i s s' _
    rw [Requirements.set] at hop
    obtain ⟨hrfl, hacy, hnd⟩ := merge_invariant_pres hop
    refine ⟨hacy (fun _ => acyclic_nil), hnd List.nodup_nil⟩
  | ofMerge fuel l _ hop ih =>
    obtain ⟨hrfl, hacy, hnd⟩ := merge_invariant_pres hop
    exact ⟨hacy ih.1, hnd ih.2⟩

/-- With fuel exceeding the length of every path out of the start node, the
recursive search returns. -/
theorem requires_fuel_isSome {pairs : List (α × α)} {r : α} :
    ∀ (n : Nat) {d : α} {prev : Option α} {fuel : Nat},
      (∀ (l : List α) (r' : α), PathTo pairs d l r' → l.length < n) →
      n ≤ fuel → (requires_fuel pairs fuel d r prev).isSome := by
  intro n
  induction n with
  | zero =>
    intro d prev fuel hbound _
    exact absurd (hbound [] d (PathTo.nil d)) (by omega)
  | succ n ih =>
    intro d prev fuel hbound hle
    cases fuel with
    | zero => omega
    | succ f =>
      simp only [requires_fuel]
      by_cases hex : exists_rel pairs d r = true
      · rw [if_pos hex]; rfl
      · rw [if_neg (by simpa using hex)]
        apply reqLoop_isSome
        intro q hq _
        have hedge : (d, q) ∈ pairs := mem_requirements.mp hq
        refine ih ?_ (Nat.le_of_succ_le_succ hle)
        intro l r' hp
        have := hbound (q :: l) r' (PathTo.cons hedge hp)
        simp only [List.length_cons] at this
        omega

/-- On an acyclic store the search terminates with fuel one more than the
number of stored pairs. -/
theorem requires_fuel_isSome_of_acyclic {pairs : List (α × α)}
    (hA : Acyclic pairs) (d r : α) :
    (requires_fuel pairs (pairs.length + 1) d r none).isSome := by
  apply requires_fuel_isSome (pairs.length + 1)
  · intro l r' hp
    have := path_length_le hA hp
    omega
  · exact le_refl _

/-- optConcat returns exactly when both arguments do. -/
theorem optConcat_isSome {a b : Option (List (List α))} :
    (optConcat a b).isSome = (a.isSome && b.isSome) := by
  cases a <;> cases b <;> rfl

/-- optConcat with a diverging left argument diverges. -/
theorem optConcat_none_left {b : Option (List (List α))} :
    optConcat none b = none := by
  cases b <;> rfl

/-- The folded row concatenation returns when every per-element row list
does. -/
theorem foldr_optConcat_isSome {β : Type} {g : β → Option (List (List α))}
    {l : List β} (h : ∀ a ∈ l, (g a).isSome) :
    (l.foldr (fun a acc => optConcat (g a) acc) (some [])).isSome := by
  induction l with
  | nil => simp
  | cons a as ih =>
    simp only [List.foldr_cons, optConcat_isSome]
    have h1 := h a (List.mem_cons_self _ _)
    have h2 := ih (fun b hb => h b (List.mem_cons_of_mem _ hb))
    rw [h1, h2]
    rfl

/-- Every row of the folded concatenation comes from one of the
per-element row lists. -/
theorem foldr_optConcat_mem {β : Type} {g : β → Option (List (List α))} :
    ∀ {l : List β} {rows : List (List α)} {row : List α},
      l.foldr (fun a acc => optConcat (g a) acc) (some []) = some rows →
      row ∈ rows → ∃ a ∈ l, ∃ ra, g a = some ra ∧ row ∈ ra := by
  intro l
  induction l with
  | nil =>
    intro rows row h hrow
    simp only [List.foldr_nil, Option.some.injEq] at h
    subst h
    cases hrow
  | cons a as ih =>
    intro rows row h hrow
    simp only [List.foldr_cons] at h
    cases hg : g a with
    | none => rw [hg, optConcat_none_left] at h; cases h
    | some ra =>
      rw [hg] at h
      cases hf : List.foldr (fun a acc => optConcat (g a) acc)
          (some ([] : List (List α))) as with
      | none => rw [hf] at h; cases h
      | some rest =>
        rw [hf] at h
        simp only [optConcat, Option.some.injEq] at h
        subst h
        rcases List.mem_append.mp hrow with h1 | h2
        · exact ⟨a, List.mem_cons_self _ _, ra, hg, h1⟩
        · obtain ⟨b, hb, rb, hgb, hrb⟩ := ih hf h2
          exact ⟨b, List.mem_cons_of_mem _ hb, rb, hgb, hrb⟩

/-- chainRows returns whenever the recursive row list it may need
returns. -/
theorem chainRows_isSome {d req : α} {hasSub : Bool}
    {sub : Option (List (List α))} (h : hasSub = true → sub.isSome) :
    (chainRows d req hasSub sub).isSome := by
  cases hasSub
  · simp [chainRows]
  · cases sub with
    | none => have h1 := h rfl; cases h1
    | some subs => simp [chainRows]

/-- Each row produced by chainRows is either the two-element base row or a
kept recursive row prefixed with the dependent. -/
theorem chainRows_mem {d req : α} {hasSub : Bool}
    {sub : Option (List (List α))} {ra : List (List α)} {row : List α}
    (h : chainRows d req hasSub sub = some ra) (hrow : row ∈ ra) :
    row = [d, req] ∨
      ∃ subs c, sub = some subs ∧ c ∈ subs ∧ row = d :: c := by
  cases hasSub
  · simp only [chainRows, Bool.false_eq_true, if_false, Option.some.injEq] at h
    subst h
    simp only [List.mem_singleton] at hrow
    exact Or.inl hrow
  · cases sub with
    | none => simp [chainRows] at h
    | some subs =>
      simp only [chainRows, if_true, Option.some.injEq] at h
      subst h
      by_cases hk : (subs.filter (fun c => !decide (c.get? 1 = some d))).isEmpty
      · rw [if_pos hk] at hrow
        simp only [List.mem_singleton] at hrow
        exact Or.inl hrow
      · rw [if_neg hk] at hrow
        obtain ⟨c, hc, hrc⟩ := List.mem_map.mp hrow
        exact Or.inr ⟨subs, c, rfl, List.mem_of_mem_filter hc, hrc.symm⟩

/-- With fuel exceeding the length of every path out of the start node, the
chain enumeration returns. -/
theorem all_requirements_isSome {pairs : List (α × α)} :
    ∀ (n : Nat) {d : α} {fuel : Nat},
      (∀ (l : List α) (r' : α), PathTo pairs d l r' → l.length < n) →
      n ≤ fuel → (all_requirements pairs fuel d).isSome := by
  intro n
  induction n with
  | zero =>
    intro d fuel hbound _
    exact absurd (hbound [] d (PathTo.nil d)) (by omega)
  | succ n ih =>
    intro d fuel hbound hle
    cases fuel with
    | zero => omega
    | succ f =>
      simp only [all_requirements]
      apply foldr_optConcat_isSome
      intro req hreq
      apply chainRows_isSome
      intro _
      have hedge : (d, req) ∈ pairs := mem_requirements.mp hreq
      refine ih ?_ (Nat.le_of_succ_le_succ hle)
      intro l r' hp
      have := hbound (req :: l) r' (PathTo.cons hedge hp)
      simp only [List.length_cons] at this
      omega

/-- On an acyclic store the chain enumeration terminates with fuel one more
than the number of stored pairs. -/
theorem all_requirements_isSome_of_acyclic {pairs : List (α × α)}
    (hA : Acyclic pairs) (d : α) :
    (all_requirements pairs (pairs.length + 1) d).isSome := by
  apply all_requirements_isSome (pairs.length + 1)
  · intro l r' hp
    have := path_length_le hA hp
    omega
  · exact le_refl _

/-- The store with every pair reversed. -/
def swapPairs (pairs : List (α × α)) : List (α × α) :=
  pairs.map (fun p => (p.2, p.1))

/-- Membership in the reversed store. -/
theorem mem_swapPairs {pairs : List (α × α)} {a b : α} :
    (a, b) ∈ swapPairs pairs ↔ (b, a) ∈ pairs := by
  simp only [swapPairs, List.mem_map, Prod.mk.injEq]
  constructor
  · rintro ⟨⟨x, y⟩, hm, h1, h2⟩
    simp only at h1 h2
    subst h1; subst h2; exact hm
  · intro h
    exact ⟨(b, a), h, rfl, rfl⟩

/-- Dependents of the store are requirements of the reversed store. -/
theorem dependents_swap (pairs : List (α × α)) (r : α) :
    dependents pairs r = requirements (swapPairs pairs) r := by
  induction pairs with
  | nil => rfl
  | cons p rest ih =>
    simp only [dependents, requirements, swapPairs, List.map_cons,
      List.filter_cons] at ih ⊢
    by_cases hc : p.2 = r
    · rw [if_pos (by simp [hc]), if_pos (by simp [hc])]
      simp only [List.map_cons]
      exact congrArg (List.cons p.1) ih
    · rw [if_neg (by simp [hc]), if_neg (by simp [hc])]
      exact ih

/-- has_dependents of the store is has_requirements of the reversed
store. -/
theorem has_dependents_swap (pairs : List (α × α)) (x : α) :
    has_dependents pairs x = has_requirements (swapPairs pairs) x := by
  simp only [has_dependents, has_requirements, swapPairs, List.any_map]
  rfl

/-- Paths of the reversed store reverse reachability. -/
theorem pathTo_swap_rev {pairs : List (α × α)} {x r : α} {l : List α} :
    ∀ (h : PathTo (swapPairs pairs) x l r), reachS pairs r x := by
  intro h
  induction h with
  | nil d => exact ⟨[], PathTo.nil d⟩
  | @cons d y r' l' he _ ih =>
    have hedge : (y, d) ∈ pairs := mem_swapPairs.mp he
    exact reachS_trans ih ⟨[d], PathTo.cons hedge (PathTo.nil d)⟩

/-- Acyclicity transfers to the reversed store. -/
theorem acyclic_swap {pairs : List (α × α)} (hA : Acyclic pairs) :
    Acyclic (swapPairs pairs) := by
  rintro x ⟨l, hne, hp⟩
  cases hp with
  | nil => exact hne rfl
  | cons he hp' =>
    rename_i y l'
    have hedge : (y, x) ∈ pairs := mem_swapPairs.mp he
    obtain ⟨m, hm⟩ := pathTo_swap_rev hp'
    exact hA x ⟨m ++ [x], by simp,
      hm.append (PathTo.cons hedge (PathTo.nil x))⟩

/-- The dependency enumeration is the requirement enumeration of the
reversed store. -/
theorem all_dependencies_swap (pairs : List (α × α)) :
    ∀ (fuel : Nat) (r : α),
      all_dependencies pairs fuel r = all_requirements (swapPairs pairs) fuel r := by
  intro fuel
  induction fuel with
  | zero => intro r; rfl
  | succ f ih =>
    intro r
    simp only [all_dependencies, all_requirements]
    rw [← dependents_swap]
    have hfun : (fun dep acc =>
        optConcat (chainRows r dep (has_dependents pairs dep)
          (all_dependencies pairs f dep)) acc) =
        (fun dep acc =>
          optConcat (chainRows r dep (has_requirements (swapPairs pairs) dep)
            (all_requirements (swapPairs pairs) f dep)) acc) := by
      funext dep acc
      rw [has_dependents_swap, ih]
    rw [hfun]

/-- On an acyclic store the dependency enumeration terminates with fuel one
more than the number of stored pairs. -/
theorem all_dependencies_isSome_of_acyclic {pairs : List (α × α)}
    (hA : Acyclic pairs) (r : α) :
    (all_dependencies pairs (pairs.length + 1) r).isSome := by
  rw [all_dependencies_swap]
  have hlen : pairs.length = (swapPairs pairs).length := by
    simp [swapPairs]
  rw [hlen]
  exact all_requirements_isSome_of_acyclic (acyclic_swap hA) r

/-- Consecutive elements of the list are directly stored pairs. -/
def chain_linked (pairs : List (α × α)) : List α → Prop
  | x :: y :: rest => (x, y) ∈ pairs ∧ chain_linked pairs (y :: rest)
  | _ => True

/-- Structure of the rows returned by the chain enumeration: each row has
at least two elements, starts at the queried dependent, and follows
directly stored pairs. -/
theorem all_requirements_rows {pairs : List (α × α)} :
    ∀ {fuel : Nat} {d : α} {rows : List (List α)} {row : List α},
      all_requirements pairs fuel d = some rows → row ∈ rows →
      2 ≤ row.length ∧ row.head? = some d ∧ chain_linked pairs row := by
  intro fuel
  induction fuel with
  | zero => intro d rows row h _; cases h
  | succ f ih =>
    intro d rows row h hrow
    simp only [all_requirements] at h
    obtain ⟨req, hreq, ra, hra, hrowra⟩ := foldr_optConcat_mem h hrow
    have hedge : (d, req) ∈ pairs := mem_requirements.mp hreq
    rcases chainRows_mem hra hrowra with hbase | ⟨subs, c, hsubs, hc, hrc⟩
    · subst hbase
      exact ⟨by simp, rfl, ⟨hedge, trivial⟩⟩
    · subst hrc
      obtain ⟨hlen, hhead, hlink⟩ := ih hsubs hc
      cases c with
      | nil => cases hhead
      | cons e c' =>
        have he : e = req := by
          injection hhead
        subst he
        exact ⟨by simp, rfl, ⟨hedge, hlink⟩⟩

/-- C1 amended: for every store and pair of values, whenever add returns —
its embedded requires searches terminate, which can fail to happen on
reflexive stores with cycles of length three or more (see the divergence
counterexample on the reachable three-cycle store) — it fails exactly when
dependent equals requirement, or the pair is derivable (directly or
transitively) in the same direction, or — only on a non-reflexive store —
the reverse pair is derivable; when none of these hold and the call
returns, it succeeds, inserts exactly the pair (dependent, requirement) in
front of the unchanged stored pairs, and on failure it leaves the store
unchanged. -/
theorem add_error_characterisation (s : Store α) (d r : α) (fuel : Nat)
    (s' : Store α) (e : Option ReqError)
    (h : add fuel s d r = some (s', e)) :
    (e.isSome = true ↔
        (d = r ∨ reachT s.pairs d r ∨
          (s.reflexive = false ∧ reachT s.pairs r d))) ∧
      (e = none → s' = ⟨s.reflexive, (d, r) :: s.pairs⟩) ∧
      (e.isSome = true → s' = s) := by
  simp only [add] at h
  by_cases hd : d = r
  · rw [if_pos hd] at h
    injection h with h'
    injection h' with hs he
    subst hs; subst he
    exact ⟨by simp [hd], fun hc => Option.noConfusion hc, fun _ => rfl⟩
  · rw [if_neg hd] at h
    cases hfwd : requires_fuel s.pairs fuel d r none with
    | none => rw [hfwd] at h; cases h
    | some b =>
      rw [hfwd] at h
      cases b
      · by_cases hrefl : s.reflexive
        · rw [if_pos hrefl] at h
          injection h with h'
          injection h' with hs he
          subst hs; subst he
          have hnf : ¬ reachT s.pairs d r :=
            requires_fuel_false_not_reachT hfwd hd
          refine ⟨iff_of_false (by simp) ?_, fun _ => rfl,
            fun hc => by simp at hc⟩
          rintro (h1 | h2 | ⟨h3, _⟩)
          · exact hd h1
          · exact hnf h2
          · rw [hrefl] at h3; cases h3
        · rw [if_neg hrefl] at h
          cases hrev : requires_fuel s.pairs fuel r d none with
          | none => rw [hrev] at h; cases h
          | some c =>
            rw [hrev] at h
            cases c
            · injection h with h'
              injection h' with hs he
              subst hs; subst he
              have hnf : ¬ reachT s.pairs d r :=
                requires_fuel_false_not_reachT hfwd hd
              have hnr : ¬ reachT s.pairs r d :=
                requires_fuel_false_not_reachT hrev (Ne.symm hd)
              refine ⟨iff_of_false (by simp) ?_, fun _ => rfl,
                fun hc => by simp at hc⟩
              rintro (h1 | h2 | ⟨_, h4⟩)
              · exact hd h1
              · exact hnf h2
              · exact hnr h4
            · injection h with h'
              injection h' with hs he
              subst hs; subst he
              have hreflf : s.reflexive = false := by
                revert hrefl; cases s.reflexive <;> simp
              have hr : reachT s.pairs r d := requires_fuel_true_reachT hrev
              exact ⟨iff_of_true rfl (Or.inr (Or.inr ⟨hreflf, hr⟩)),
                fun hc => Option.noConfusion hc, fun _ => rfl⟩
      · injection h with h'
        injection h' with hs he
        subst hs; subst he
        have hr : reachT s.pairs d r := requires_fuel_true_reachT hfwd
        exact ⟨iff_of_true rfl (Or.inr (Or.inl hr)),
          fun hc => Option.noConfusion hc, fun _ => rfl⟩

/-- Witness for C1: on the empty non-reflexive store, add 0 1 succeeds and
inserts exactly the pair. -/
theorem add_error_characterisation_witness :
    add 1 (⟨false, []⟩ : Store Nat) 0 1 = some (⟨false, [(0, 1)]⟩, none) ∧
      (⟨false, [(0, 1)]⟩ : Store Nat) = ⟨false, [(0, 1)]⟩ :=
  ⟨by decide,
    (add_error_characterisation ⟨false, []⟩ 0 1 1 ⟨false, [(0, 1)]⟩ none
      (by decide)).2.1 rfl⟩

/-- Counterexample to C2 as stated: set on a store holding (0,1), given the
invalid input [(2,2)], reports an error yet leaves the store cleared — its
pair collection is not what it was before the call. -/
theorem set_error_mutates :
    set 1 (⟨false, [(0, 1)]⟩ : Store Nat) [(2, 2)] =
        some (⟨false, []⟩, some ReqError.selfRelation) ∧
      (⟨false, []⟩ : Store Nat).pairs ≠ (⟨false, [(0, 1)]⟩ : Store Nat).pairs :=
  ⟨by decide, by decide⟩

/-- C2 amended: add, remove, remove_dependent and remove_requirement leave
the stored pairs exactly as they were whenever they report an error; set is
clear followed by merge, so on error the prior content is already discarded
and (as for merge) the successfully inserted prefix remains. -/
theorem error_state_characterisation :
    (∀ (fuel : Nat) (s s' : Store α) (d r : α) (e : ReqError),
        add fuel s d r = some (s', some e) → s' = s) ∧
      (∀ (s s' : Store α) (d r : α) (e : ReqError),
        remove s d r = (s', some e) → s' = s) ∧
      (∀ (s s' : Store α) (d : α) (e : ReqError),
        remove_dependent s d = (s', some e) → s' = s) ∧
      (∀ (s s' : Store α) (r : α) (e : ReqError),
        remove_requirement s r = (s', some e) → s' = s) ∧
      (∀ (fuel : Nat) (s : Store α) (l : List (α × α)),
        set fuel s l = merge fuel (clear s) l) := by
  refine ⟨?_, ?_, ?_, ?_, fun _ _ _ => rfl⟩
  · intro fuel s s' d r e h
    simp only [add] at h
    by_cases hd : d = r
    · rw [if_pos hd] at h
      injection h with h'
      injection h' with hs _
      exact hs.symm
    · rw [if_neg hd] at h
      cases hfwd : requires_fuel s.pairs fuel d r none with
      | none => rw [hfwd] at h; cases h
      | some b =>
        rw [hfwd] at h
        cases b
        · by_cases hrefl : s.reflexive
          · rw [if_pos hrefl] at h
            injection h with h'
            injection h' with _ he
            cases he
          · rw [if_neg hrefl] at h
            cases hrev : requires_fuel s.pairs fuel r d none with
            | none => rw [hrev] at h; cases h
            | some c =>
              rw [hrev] at h
              cases c
              · injection h with h'
                injection h' with _ he
                cases he
              · injection h with h'
                injection h' with hs _
                exact hs.symm
        · injection h with h'
          injection h' with hs _
          exact hs.symm
  · intro s s' d r e h
    injection h with hs he
    by_cases hC : s.pairs.any (fun p => decide (p = (d, r))) = true
    · rw [if_pos hC] at he
      cases he
    · have hall : ∀ p ∈ s.pairs, ¬ p = (d, r) := by
        intro p hp hpe
        apply hC
        rw [List.any_eq_true]
        exact ⟨p, hp, by simp [hpe]⟩
      have hf : s.pairs.filter (fun p => !decide (p = (d, r))) = s.pairs :=
        List.filter_eq_self.mpr (fun p hp => by simp [hall p hp])
      rw [← hs, hf]
  · intro s s' d e h
    by_cases hc : has_requirements s.pairs d
    · rw [remove_dependent, if_pos hc] at h
      injection h with _ he
      cases he
    · rw [remove_dependent, if_neg hc] at h
      injection h with hs _
      exact hs.symm
  · intro s s' r e h
    injection h with hs he
    by_cases hC : s.pairs.any (fun p => decide (p.2 = r)) = true
    · rw [if_pos hC] at he
      cases he
    · have hall : ∀ p ∈ s.pairs, ¬ p.2 = r := by
        intro p hp hpe
        apply hC
        rw [List.any_eq_true]
        exact ⟨p, hp, by simp [hpe]⟩
      have hf : s.pairs.filter (fun p => !decide (p.2 = r)) = s.pairs :=
        List.filter_eq_self.mpr (fun p hp => by simp [hall p hp])
      rw [← hs, hf]

/-- Witness for C2 amended: a duplicate add error leaves the store as it
was. -/
theorem error_state_characterisation_witness :
    add 1 (⟨false, [(0, 1)]⟩ : Store Nat) 0 1 =
        some (⟨false, [(0, 1)]⟩, some ReqError.duplicateRelation) ∧
      (⟨false, [(0, 1)]⟩ : Store Nat) = ⟨false, [(0, 1)]⟩ :=
  ⟨by decide,
    error_state_characterisation.1 1 ⟨false, [(0, 1)]⟩ ⟨false, [(0, 1)]⟩ 0 1
      ReqError.duplicateRelation (by decide)⟩

/-- Unfolding equation of the fuelled search at a successor fuel value. -/
theorem requires_fuel_succ (pairs : List (α × α)) (fuel : Nat) (d r : α)
    (prev : Option α) :
    requires_fuel pairs (fuel + 1) d r prev =
      if exists_rel pairs d r then some true
      else reqLoop (fun q => requires_fuel pairs fuel q r (some d)) prev
        (requirements pairs d) := rfl

/-- On the three-cycle 0 → 1 → 2 → 0 the search for an absent requirement
keeps cycling through the states (0, prev 2), (1, prev 0), (2, prev 1): no
fuel suffices. -/
theorem three_cycle_states_stuck :
    ∀ fuel : Nat,
      requires_fuel ([(0, 1), (1, 2), (2, 0)] : List (Nat × Nat)) fuel 0 3
          (some 2) = none ∧
        requires_fuel [(0, 1), (1, 2), (2, 0)] fuel 1 3 (some 0) = none ∧
        requires_fuel [(0, 1), (1, 2), (2, 0)] fuel 2 3 (some 1) = none := by
  intro fuel
  induction fuel with
  | zero => exact ⟨rfl, rfl, rfl⟩
  | succ f ih =>
    obtain ⟨ih0, ih1, ih2⟩ := ih
    refine ⟨?_, ?_, ?_⟩
    · rw [requires_fuel_succ, if_neg (by decide),
        show requirements ([(0, 1), (1, 2), (2, 0)] : List (Nat × Nat)) 0 =
          [1] from rfl]
      simp only [reqLoop]
      rw [if_neg (by decide), ih1]
    · rw [requires_fuel_succ, if_neg (by decide),
        show requirements ([(0, 1), (1, 2), (2, 0)] : List (Nat × Nat)) 1 =
          [2] from rfl]
      simp only [reqLoop]
      rw [if_neg (by decide), ih2]
    · rw [requires_fuel_succ, if_neg (by decide),
        show requirements ([(0, 1), (1, 2), (2, 0)] : List (Nat × Nat)) 2 =
          [0] from rfl]
      simp only [reqLoop]
      rw [if_neg (by decide), ih0]

/-- The top-level search on the three-cycle never returns, whatever the
recursion depth allowed. -/
theorem three_cycle_requires_none :
    ∀ fuel : Nat,
      requires_fuel ([(0, 1), (1, 2), (2, 0)] : List (Nat × Nat)) fuel 0 3
        none = none := by
  intro fuel
  cases fuel with
  | zero => rfl
  | succ f =>
    rw [requires_fuel_succ, if_neg (by decide),
      show requirements ([(0, 1), (1, 2), (2, 0)] : List (Nat × Nat)) 0 =
        [1] from rfl]
    simp only [reqLoop]
    rw [if_neg (by decide), (three_cycle_states_stuck f).2.1]

/-- Counterexample to C3 as stated: the reflexive store can hold the
three-cycle (0,1), (1,2), (2,0) — each add passes its guards — and there
requires(0, 3) recurses forever: the parent-only guard does not bound
cycles of length three. -/
theorem requires_divergence_three_cycle :
    merge 3 (⟨true, []⟩ : Store Nat) [(0, 1), (1, 2), (2, 0)] =
        some (⟨true, [(2, 0), (1, 2), (0, 1)]⟩, none) ∧
      ¬ requires_terminates ([(0, 1), (1, 2), (2, 0)] : List (Nat × Nat)) 0 3 := by
  refine ⟨by decide, ?_⟩
  rintro ⟨fuel, h⟩
  rw [three_cycle_requires_none fuel] at h
  cases h

/-- One recursive level below the top on a two-node mutual cycle: starting
from a neighbour q of x, the guard skips the sole way back and the search
returns within depth two. -/
theorem two_cycle_step (a b y : α) {x q : α}
    (hmem : (x, q) ∈ ([(a, b), (b, a)] : List (α × α))) :
    (requires_fuel [(a, b), (b, a)] 2 q y (some x)).isSome := by
  show (if exists_rel [(a, b), (b, a)] q y then some true
      else reqLoop (fun q' => requires_fuel [(a, b), (b, a)] 1 q' y (some q))
        (some x) (requirements [(a, b), (b, a)] q)).isSome
  by_cases hex : exists_rel [(a, b), (b, a)] q y = true
  · rw [if_pos hex]; rfl
  · rw [if_neg hex]
    apply reqLoop_isSome
    intro q' hq' hskip
    exfalso
    apply hskip
    have hq'mem : (q, q') ∈ ([(a, b), (b, a)] : List (α × α)) :=
      mem_requirements.mp hq'
    simp only [List.mem_cons, List.mem_singleton, Prod.mk.injEq,
      List.not_mem_nil, or_false] at hmem hq'mem
    rcases hmem with ⟨rfl, rfl⟩ | ⟨rfl, rfl⟩
    · rcases hq'mem with ⟨h1, rfl⟩ | ⟨_, rfl⟩
      · rw [h1]
      · rfl
    · rcases hq'mem with ⟨_, rfl⟩ | ⟨h1, rfl⟩
      · rfl
      · rw [← h1]

/-- C3 amended: the parent-only guard does prevent infinite recursion on
two-node reflexive cycles — on any store holding exactly a pair and its
mirror, requires terminates for every query — but not on reflexive cycles
of length three or more, where requires recurses forever (see the
counterexample on the store (0,1), (1,2), (2,0)). -/
theorem requires_terminates_two_cycle (a b x y : α) :
    requires_terminates [(a, b), (b, a)] x y := by
  refine ⟨3, ?_⟩
  show (if exists_rel [(a, b), (b, a)] x y then some true
      else reqLoop (fun q => requires_fuel [(a, b), (b, a)] 2 q y (some x))
        none (requirements [(a, b), (b, a)] x)).isSome
  by_cases hex : exists_rel [(a, b), (b, a)] x y = true
  · rw [if_pos hex]; rfl
  · rw [if_neg hex]
    apply reqLoop_isSome
    intro q hq _
    exact two_cycle_step a b y (mem_requirements.mp hq)

/-- A nonempty path into r ends with a stored pair whose requirement is
r. -/
theorem pathTo_last_edge {pairs : List (α × α)} {r : α} :
    ∀ {d : α} {l : List α}, PathTo pairs d l r → l ≠ [] →
      ∃ y, (y, r) ∈ pairs := by
  intro d l hp
  induction hp with
  | nil => intro hne; exact absurd rfl hne
  | @cons d' x r' l' he hp' ih =>
    intro _
    cases hp' with
    | nil => exact ⟨d', he⟩
    | cons he2 hp2 => exact ih (List.cons_ne_nil _ _)

/-- Nothing in the three-cycle store points at 3, so (0,3) is not
derivable. -/
theorem three_cycle_not_reach_three :
    ¬ reachT ([(0, 1), (1, 2), (2, 0)] : List (Nat × Nat)) 0 3 := by
  rintro ⟨l, hne, hp⟩
  obtain ⟨y, hy⟩ := pathTo_last_edge hp hne
  simp at hy

/-- On the reflexive three-cycle store, add(0, 3) never returns: its
embedded forward requires search recurses forever at every allowed
depth. -/
theorem three_cycle_add_none :
    ∀ fuel : Nat,
      add fuel (⟨true, [(0, 1), (1, 2), (2, 0)]⟩ : Store Nat) 0 3 = none := by
  intro fuel
  simp only [add]
  rw [if_neg (by decide), three_cycle_requires_none fuel]

/-- Counterexample to C1 as stated: the reflexive three-cycle store is
reachable by successful adds, and on it add(0, 3) satisfies none of the
claimed failure conditions — 0 and 3 differ, (0, 3) is not derivable, and
the store is reflexive so the reverse check is moot — yet add does not
succeed and insert the pair: it never returns at all, because its embedded
requires search recurses forever. -/
theorem add_divergence_three_cycle :
    merge 3 (⟨true, []⟩ : Store Nat) [(2, 0), (1, 2), (0, 1)] =
        some (⟨true, [(0, 1), (1, 2), (2, 0)]⟩, none) ∧
      (0 : Nat) ≠ 3 ∧
      ¬ reachT ([(0, 1), (1, 2), (2, 0)] : List (Nat × Nat)) 0 3 ∧
      (⟨true, [(0, 1), (1, 2), (2, 0)]⟩ : Store Nat).reflexive = true ∧
      ¬ add_terminates (⟨true, [(0, 1), (1, 2), (2, 0)]⟩ : Store Nat) 0 3 := by
  refine ⟨by decide, by decide, three_cycle_not_reach_three, rfl, ?_⟩
  rintro ⟨fuel, h⟩
  rw [three_cycle_add_none fuel] at h
  cases h

/-- A ranking function decreasing along every stored pair certifies
acyclicity. -/
theorem acyclic_of_rank {pairs : List (α × α)} (rank : α → Nat)
    (h : ∀ p ∈ pairs, rank p.2 < rank p.1) : Acyclic pairs := by
  have key : ∀ {d : α} {l : List α} {r : α}, PathTo pairs d l r →
      rank r ≤ rank d ∧ (l ≠ [] → rank r < rank d) := by
    intro d l r hp
    induction hp with
    | nil => exact ⟨le_refl _, fun hne => absurd rfl hne⟩
    | cons he _ ih =>
      have h1 := h _ he
      exact ⟨le_trans ih.1 (le_of_lt h1), fun _ => lt_of_le_of_lt ih.1 h1⟩
  rintro x ⟨l, hne, hp⟩
  exact absurd ((key hp).2 hne) (lt_irrefl _)

/-- C4: on every non-reflexive store reachable from the empty store by
successful operations, no pair of values A, B has both (A,B) and (B,A)
holding, where a pair holds when it is stored directly or derivable
transitively through stored pairs. -/
theorem mirror_exclusion (s : Store α) (h : Reachable s)
    (hrefl : s.reflexive = false) (A B : α) :
    ¬ (reachT s.pairs A B ∧ reachT s.pairs B A) := by
  rintro ⟨h1, h2⟩
  exact (reachable_invariant h).1 hrefl A (reachT_trans h1 h2)

/-- Witness for C4 at the reachable one-pair non-reflexive store. -/
theorem mirror_exclusion_witness :
    Reachable (⟨false, [(0, 1)]⟩ : Store Nat) ∧
      ¬ (reachT [(0, 1)] 0 1 ∧ reachT [(0, 1)] 1 0) := by
  have hre : Reachable (⟨false, [(0, 1)]⟩ : Store Nat) :=
    Reachable.ofAdd 1 0 1 (Reachable.ofEmpty false) (by decide)
  exact ⟨hre, mirror_exclusion _ hre rfl 0 1⟩

/-- Counterexample to C5 as stated: all four adds (0,1), (0,2), (3,1),
(2,3) succeed from the empty non-reflexive store — every guard passes at
insertion time — yet in the final store the stored pair (0,1) is also
derivable through the chain 0 → 2 → 3 → 1 of the other stored pairs. -/
theorem stored_pair_becomes_redundant :
    merge 3 (⟨false, []⟩ : Store Nat) [(0, 1), (0, 2), (3, 1), (2, 3)] =
        some (⟨false, [(2, 3), (3, 1), (0, 2), (0, 1)]⟩, none) ∧
      (0, 1) ∈ ([(2, 3), (3, 1), (0, 2), (0, 1)] : List (Nat × Nat)) ∧
      reachT (([(2, 3), (3, 1), (0, 2), (0, 1)] : List (Nat × Nat)).erase (0, 1))
        0 1 := by
  refine ⟨by decide, by decide, ?_⟩
  refine ⟨[2, 3, 1], by decide, ?_⟩
  have h1 : (([(2, 3), (3, 1), (0, 2), (0, 1)] : List (Nat × Nat)).erase (0, 1)) =
      [(2, 3), (3, 1), (0, 2)] := by decide
  rw [h1]
  exact PathTo.cons (by decide)
    (PathTo.cons (by decide) (PathTo.cons (by decide) (PathTo.nil 1)))

/-- C5 amended: every store reachable from the empty store by successful
operations stores the exact pair at most once (its pair list is
duplicate-free); the stronger transitive-redundancy freedom claimed is not
an invariant, since a pair stored earlier can become derivable through
pairs added later (see the counterexample). -/
theorem stored_pairs_nodup (s : Store α) (h : Reachable s) : s.pairs.Nodup :=
  (reachable_invariant h).2

/-- Witness for C5 amended at the reachable one-pair store. -/
theorem stored_pairs_nodup_witness :
    Reachable (⟨false, [(0, 1)]⟩ : Store Nat) ∧
      ([(0, 1)] : List (Nat × Nat)).Nodup := by
  have hre : Reachable (⟨false, [(0, 1)]⟩ : Store Nat) :=
    Reachable.ofAdd 1 0 1 (Reachable.ofEmpty false) (by decide)
  exact ⟨hre, stored_pairs_nodup _ hre⟩

/-- C8: every non-reflexive store reachable from the empty store by
successful operations is acyclic; consequently the recursive search
terminates for every query, requires(x, x) returns false for every x, and
both chain enumerations terminate (fuel one more than the number of stored
pairs always suffices). -/
theorem nonreflexive_reachable_acyclic (s : Store α) (h : Reachable s)
    (hrefl : s.reflexive = false) :
    (∀ x, ¬ reachT s.pairs x x) ∧
      (∀ x y, requires_terminates s.pairs x y) ∧
      (∀ x, requires_fuel s.pairs (s.pairs.length + 1) x x none = some false) ∧
      (∀ d, (all_requirements s.pairs (s.pairs.length + 1) d).isSome) ∧
      (∀ r, (all_dependencies s.pairs (s.pairs.length + 1) r).isSome) := by
  have hA : Acyclic s.pairs := (reachable_invariant h).1 hrefl
  refine ⟨hA, ?_, ?_, fun d => all_requirements_isSome_of_acyclic hA d,
    fun r => all_dependencies_isSome_of_acyclic hA r⟩
  · intro x y
    exact ⟨s.pairs.length + 1, requires_fuel_isSome_of_acyclic hA x y⟩
  · intro x
    have hs := requires_fuel_isSome_of_acyclic hA x x
    cases hb : requires_fuel s.pairs (s.pairs.length + 1) x x none with
    | none => rw [hb] at hs; cases hs
    | some b =>
      cases b
      · rfl
      · exact absurd (requires_fuel_true_reachT hb) (hA x)

/-- Witness for C8 at the reachable one-pair non-reflexive store. -/
theorem nonreflexive_reachable_acyclic_witness :
    Reachable (⟨false, [(0, 1)]⟩ : Store Nat) ∧
      ¬ reachT ([(0, 1)] : List (Nat × Nat)) 0 0 := by
  have hre : Reachable (⟨false, [(0, 1)]⟩ : Store Nat) :=
    Reachable.ofAdd 1 0 1 (Reachable.ofEmpty false) (by decide)
  exact ⟨hre, (nonreflexive_reachable_acyclic _ hre rfl).1 0⟩

/-- C9: on an acyclic store, for a dependent with at least one direct
requirement, every chain returned by the chain enumeration has at least two
elements, starts with the dependent, and its consecutive elements are
directly stored pairs. -/
theorem all_requirements_chain_structure (pairs : List (α × α)) (d : α)
    (hA : Acyclic pairs) (hreq : has_requirements pairs d = true)
    (fuel : Nat) (rows : List (List α)) (row : List α)
    (h : all_requirements pairs fuel d = some rows) (hrow : row ∈ rows) :
    2 ≤ row.length ∧ row.head? = some d ∧ chain_linked pairs row :=
  all_requirements_rows h hrow

/-- Witness for C9 on the one-pair store. -/
theorem all_requirements_chain_structure_witness :
    Acyclic ([(0, 1)] : List (Nat × Nat)) ∧
      has_requirements ([(0, 1)] : List (Nat × Nat)) 0 = true ∧
      (2 ≤ ([0, 1] : List Nat).length ∧
        ([0, 1] : List Nat).head? = some 0 ∧
        chain_linked [(0, 1)] [0, 1]) := by
  have hA : Acyclic ([(0, 1)] : List (Nat × Nat)) :=
    acyclic_of_rank (fun x => 2 - x) (by decide)
  exact ⟨hA, by decide,
    all_requirements_chain_structure [(0, 1)] 0 hA (by decide) 2 [[0, 1]]
      [0, 1] (by decide) (by decide)⟩

/-- Core computation for the three-node chain A → B → C, stated via the
direct-query values so that it covers any arrangement of the two stored
pairs. -/
theorem chain_core {pairs : List (α × α)} {A B C : α}
    (hreqA : requirements pairs A = [B])
    (hreqB : requirements pairs B = [C])
    (hhasB : has_requirements pairs B = true)
    (hhasC : has_requirements pairs C = false)
    (hexAC : exists_rel pairs A C = false)
    (hexBC : exists_rel pairs B C = true)
    (hCA : ¬ C = A) :
    all_requirements pairs 3 A = some [[A, B, C]] ∧
      requires_fuel pairs 3 A C none = some true := by
  constructor
  · show ((requirements pairs A).foldr
        (fun req acc => optConcat (chainRows A req (has_requirements pairs req)
          (all_requirements pairs 2 req)) acc) (some [])) = some [[A, B, C]]
    rw [hreqA]
    simp only [List.foldr_cons, List.foldr_nil]
    have h2 : all_requirements pairs 2 B = some [[B, C]] := by
      show ((requirements pairs B).foldr
          (fun req acc => optConcat (chainRows B req (has_requirements pairs req)
            (all_requirements pairs 1 req)) acc) (some [])) = some [[B, C]]
      rw [hreqB]
      simp only [List.foldr_cons, List.foldr_nil]
      rw [hhasC]
      rfl
    rw [hhasB, h2]
    simp [chainRows, optConcat, hCA]
  · show (if exists_rel pairs A C then some true
        else reqLoop (fun q => requires_fuel pairs 2 q C (some A)) none
          (requirements pairs A)) = some true
    rw [if_neg (by simp [hexAC]), hreqA]
    simp only [reqLoop]
    rw [if_neg (by simp)]
    have hstep : requires_fuel pairs 2 B C (some A) = some true := by
      show (if exists_rel pairs B C then some true
          else reqLoop (fun q => requires_fuel pairs 1 q C (some B)) (some A)
            (requirements pairs B)) = some true
      rw [if_pos hexBC]
    rw [hstep]

/-- C6: for any store holding exactly the pairs (A,B) and (B,C) with A, B,
C pairwise distinct, all_requirements(A) returns the single chain
[A, B, C], requires(A, C) returns true, and exists(A, C) returns false. -/
theorem chain_queries (A B C : α) (hAB : A ≠ B) (hAC : A ≠ C) (hBC : B ≠ C)
    (pairs : List (α × α))
    (hp : pairs = [(A, B), (B, C)] ∨ pairs = [(B, C), (A, B)]) :
    all_requirements pairs 3 A = some [[A, B, C]] ∧
      requires_fuel pairs 3 A C none = some true ∧
      exists_rel pairs A C = false := by
  have hCA : ¬ C = A := fun h => hAC h.symm
  have hBA : ¬ B = A := fun h => hAB h.symm
  rcases hp with rfl | rfl
  · have hreqA : requirements [(A, B), (B, C)] A = [B] := by
      simp [requirements, List.filter_cons, hBA]
    have hreqB : requirements [(A, B), (B, C)] B = [C] := by
      simp [requirements, List.filter_cons, hAB]
    have hhasB : has_requirements [(A, B), (B, C)] B = true := by
      simp [has_requirements]
    have hhasC : has_requirements [(A, B), (B, C)] C = false := by
      simp [has_requirements, hAC, hBC]
    have hexAC : exists_rel [(A, B), (B, C)] A C = false := by
      simp [exists_rel, hBC, hBA]
    have hexBC : exists_rel [(A, B), (B, C)] B C = true := by
      simp [exists_rel]
    have hcore := chain_core hreqA hreqB hhasB hhasC hexAC hexBC hCA
    exact ⟨hcore.1, hcore.2, hexAC⟩
  · have hreqA : requirements [(B, C), (A, B)] A = [B] := by
      simp [requirements, List.filter_cons, hBA]
    have hreqB : requirements [(B, C), (A, B)] B = [C] := by
      simp [requirements, List.filter_cons, hAB]
    have hhasB : has_requirements [(B, C), (A, B)] B = true := by
      simp [has_requirements]
    have hhasC : has_requirements [(B, C), (A, B)] C = false := by
      simp [has_requirements, hAC, hBC]
    have hexAC : exists_rel [(B, C), (A, B)] A C = false := by
      simp [exists_rel, hBC, hBA]
    have hexBC : exists_rel [(B, C), (A, B)] B C = true := by
      simp [exists_rel]
    have hcore := chain_core hreqA hreqB hhasB hhasC hexAC hexBC hCA
    exact ⟨hcore.1, hcore.2, hexAC⟩

/-- Witness for C6 at A = 0, B = 1, C = 2 with the first arrangement. -/
theorem chain_queries_witness :
    all_requirements ([(0, 1), (1, 2)] : List (Nat × Nat)) 3 0 =
        some [[0, 1, 2]] ∧
      requires_fuel ([(0, 1), (1, 2)] : List (Nat × Nat)) 3 0 2 none =
        some true ∧
      exists_rel ([(0, 1), (1, 2)] : List (Nat × Nat)) 0 2 = false :=
  chain_queries 0 1 2 (by decide) (by decide) (by decide) [(0, 1), (1, 2)]
    (Or.inl rfl)

/-- C7: with the encoding Kyle = 0, Jack = 1, John = 2, Joe = 3, the three
adds succeed on the empty non-reflexive store, size is 3, dependents(John)
is {Jack, Joe} up to order, all_requirements(true) yields exactly the two
chains [3,2] and [0,1,2], both ending in John, and all_dependencies(true)
yields exactly the two chains [2,3] and [2,1,0], ending in Joe and Kyle. -/
theorem five_object_scenario :
    add 3 (⟨false, []⟩ : Store Nat) 0 1 = some (⟨false, [(0, 1)]⟩, none) ∧
      add 3 (⟨false, [(0, 1)]⟩ : Store Nat) 1 2 =
        some (⟨false, [(1, 2), (0, 1)]⟩, none) ∧
      add 3 (⟨false, [(1, 2), (0, 1)]⟩ : Store Nat) 3 2 =
        some (⟨false, [(3, 2), (1, 2), (0, 1)]⟩, none) ∧
      ([(3, 2), (1, 2), (0, 1)] : List (Nat × Nat)).length = 3 ∧
      (dependents ([(3, 2), (1, 2), (0, 1)] : List (Nat × Nat)) 2).Perm [1, 3] ∧
      all_requirements_all 9 [(3, 2), (1, 2), (0, 1)] true =
        some [[3, 2], [0, 1, 2]] ∧
      ([3, 2] : List Nat).getLast? = some 2 ∧
      ([0, 1, 2] : List Nat).getLast? = some 2 ∧
      all_dependencies_all 9 [(3, 2), (1, 2), (0, 1)] true =
        some [[2, 3], [2, 1, 0]] ∧
      ([2, 3] : List Nat).getLast? = some 3 ∧
      ([2, 1, 0] : List Nat).getLast? = some 0 := by
  decide

/-- C10: a reflexive store holding exactly the mutual pair (0,1), (1,0) —
reached by two successful adds — has size 2, yet both full enumerations
with without_duplicates = true return no chains at all, since every
dependent has a dependent and every requirement has a requirement. -/
theorem mutual_pair_no_roots :
    add 2 (⟨true, []⟩ : Store Nat) 0 1 = some (⟨true, [(0, 1)]⟩, none) ∧
      add 2 (⟨true, [(0, 1)]⟩ : Store Nat) 1 0 =
        some (⟨true, [(1, 0), (0, 1)]⟩, none) ∧
      ([(1, 0), (0, 1)] : List (Nat × Nat)).length = 2 ∧
      all_requirements_all 9 [(1, 0), (0, 1)] true = some [] ∧
      all_dependencies_all 9 [(1, 0), (0, 1)] true = some [] := by
  decide

end Requirements
